import Mathlib

/-!
Verification development for the gofi occlusion-aware goal-recognition and
planning core. The Python source is shallowly embedded: dictionaries become
total functions or association lists, floats become rationals, and the
external igp2 collaborators (planner oracle, reward function, base rollout
simulator) are abstract parameters, as the specification treats them as
external interfaces.
-/

/-- An occludable element: an igp2 agent, reduced to its identifier and an
abstract state token (the concrete kinematic state is irrelevant to the
verified claims). Mirrors the fields `agent_id` and `state` used by
`occluded_factor.py`. -/
structure OElem where
  agent_id : Nat
  state : Nat
deriving DecidableEq

/-- Embedding of `gofi.occluded_factor.OccludedFactor`. The `elements` list
holds `Option OElem` because the Python code constructs the empty-element
factor as `OccludedFactor([None], [False])`; a `presence` of `[]` plays the
role of Python `None` (it only arises for an empty element list). -/
structure OccludedFactor where
  elements : List (Option OElem)
  presence : List Bool
  force_visible : Bool
  force_invisible : Bool
deriving DecidableEq

namespace OccludedFactor

/-- `OccludedFactor.no_occlusions`: presence is `None` or has no true bit. -/
def no_occlusions (f : OccludedFactor) : Bool :=
  !(f.presence.any id)

/-- `OccludedFactor.present_elements`: elements whose presence bit is true. -/
def present_elements (f : OccludedFactor) : List OElem :=
  (f.elements.zip f.presence).filterMap (fun ep => if ep.2 then ep.1 else none)

/-- All boolean presence vectors of length `n`, in the order produced by
`itertools.product(*[[True, False]] * n)` (leftmost position varies slowest,
`True` before `False`). -/
def boolProduct : Nat → List (List Bool)
  | 0 => [[]]
  | n + 1 =>
      (boolProduct n).map (fun p => true :: p) ++
        (boolProduct n).map (fun p => false :: p)

/-- Embedding of `OccludedFactor.create_all_instantiations`. -/
def create_all_instantiations (elements : List OElem)
    (forced_visible_agents : List Nat) : List OccludedFactor :=
  if elements.isEmpty then
    [⟨[none], [false], false, false⟩]
  else
    let elems : List (Option OElem) := elements.map some
    let presences := boolProduct elements.length
    if forced_visible_agents.isEmpty then
      presences.map (fun p => ⟨elems, p, false, false⟩)
    else
      let forced_ids_idx := (List.range elements.length).filter
        (fun i => match elements.get? i with
          | some a => decide (a.agent_id ∈ forced_visible_agents)
          | none => false)
      presences.map (fun p =>
        if forced_ids_idx.all (fun i => p.getD i false) then
          ⟨elems, p, true, false⟩
        else if forced_ids_idx.all (fun i => !(p.getD i false)) then
          ⟨elems, p, false, true⟩
        else
          ⟨elems, p, false, false⟩)

theorem boolProduct_length (n : Nat) : (boolProduct n).length = 2 ^ n := by
  induction n with
  | zero => rfl
  | succ n ih =>
      simp [boolProduct, ih, Nat.pow_succ]
      ring

theorem boolProduct_count_all_false (n : Nat) :
    (boolProduct n).countP (fun p => !(p.any id)) = 1 := by
  induction n with
  | zero => rfl
  | succ n ih =>
      simp only [boolProduct, List.countP_append, List.countP_map]
      have htrue : ((boolProduct n).countP
          ((fun p => !(p.any id)) ∘ (fun p => true :: p))) = 0 := by
        apply List.countP_eq_zero.mpr
        intro p _
        simp [List.any_cons]
      have hfalse : ((boolProduct n).countP
          ((fun p => !(p.any id)) ∘ (fun p => false :: p))) =
          (boolProduct n).countP (fun p => !(p.any id)) := by
        apply List.countP_congr
        intro p _
        simp [List.any_cons]
      rw [htrue, hfalse, ih]

end OccludedFactor

/-- C9: for every element list with no forced-visible subset,
`OccludedFactor.create_all_instantiations` returns exactly `max 1 (2^n)`
hypotheses, exactly one of which is the no-occlusion hypothesis (all presence
bits false). -/
theorem C9_hypothesis_enumeration (elements : List OElem) :
    (OccludedFactor.create_all_instantiations elements []).length =
      max 1 (2 ^ elements.length) ∧
    (OccludedFactor.create_all_instantiations elements []).countP
      (fun f => f.no_occlusions) = 1 := by
  cases elements with
  | nil =>
      constructor
      · rfl
      · rfl
  | cons e es =>
      unfold OccludedFactor.create_all_instantiations
      simp only [List.isEmpty_cons, Bool.false_eq_true, if_false, List.isEmpty_nil, if_true]
      constructor
      · rw [List.length_map, OccludedFactor.boolProduct_length]
        have h1 : 1 ≤ 2 ^ (e :: es).length := Nat.one_le_two_pow
        omega
      · rw [List.countP_map]
        have hcomp : ((fun f => OccludedFactor.no_occlusions f) ∘
            fun p => (⟨List.map some (e :: es), p, false, false⟩ : OccludedFactor)) =
            fun p => !(p.any id) := rfl
        rw [hcomp, OccludedFactor.boolProduct_count_all_false]

namespace OGoalsProbabilities

/-- `n_occluded` from `OGoalsProbabilities.__init__`: the number of factors
with at least one present (occluded) element. -/
def n_occluded (factors : List OccludedFactor) : Nat :=
  (factors.filter (fun f => !(f.no_occlusions))).length

/-- `n_visible` from `OGoalsProbabilities.__init__`. -/
def n_visible (factors : List OccludedFactor) : Nat :=
  factors.length - n_occluded factors

/-- The scalar-`pz` branch of `OGoalsProbabilities.__init__` (lines 39-45):
`pnz / n_visible` for a no-occlusion factor, `pz / n_occluded` otherwise. -/
def scalar_occluded_factors_priors (factors : List OccludedFactor) (pz : ℚ) :
    List ℚ :=
  let pnz : ℚ := 1 - pz
  factors.map (fun f =>
    if f.no_occlusions then pnz / (n_visible factors : ℚ)
    else pz / (n_occluded factors : ℚ))

theorem n_visible_eq_count (factors : List OccludedFactor) :
    n_visible factors = (factors.filter (fun f => f.no_occlusions)).length := by
  have hpart := List.length_eq_countP_add_countP
    (fun f : OccludedFactor => !f.no_occlusions) factors
  have hc : factors.countP (fun a => decide (¬((!a.no_occlusions) = true))) =
      factors.countP (fun f => f.no_occlusions) := by
    apply List.countP_congr
    intro a _
    simp
  rw [hc] at hpart
  unfold n_visible n_occluded
  rw [← List.countP_eq_length_filter, ← List.countP_eq_length_filter]
  omega

end OGoalsProbabilities

/-- C6: under a scalar occlusion mass `pz`, each occluding hypothesis gets
prior `pz / n_occluded` and each non-occluding hypothesis `(1-pz) / n_visible`;
whenever a hypothesis of either kind exists, the corresponding denominator is
positive (so no division by zero is performed); and in the concrete instance of
one occluded element (two hypotheses) with `pz = 1/10` the priors are `1/10`
for the present hypothesis and `9/10` for the absent one. -/
theorem C6_scalar_priors (factors : List OccludedFactor) (pz : ℚ) :
    (∀ (i : Nat) (f : OccludedFactor), factors[i]? = some f →
      (OGoalsProbabilities.scalar_occluded_factors_priors factors pz)[i]? =
        some (if f.no_occlusions then
          (1 - pz) / (OGoalsProbabilities.n_visible factors : ℚ)
        else pz / (OGoalsProbabilities.n_occluded factors : ℚ)) ∧
      (f.no_occlusions = true → 0 < OGoalsProbabilities.n_visible factors) ∧
      (f.no_occlusions = false → 0 < OGoalsProbabilities.n_occluded factors)) ∧
    OGoalsProbabilities.scalar_occluded_factors_priors
      (OccludedFactor.create_all_instantiations [⟨0, 0⟩] []) (1/10) =
      [1/10, 9/10] := by
  constructor
  · intro i f hif
    have hmem : f ∈ factors := List.getElem?_mem hif
    refine ⟨?_, ?_, ?_⟩
    · unfold OGoalsProbabilities.scalar_occluded_factors_priors
      simp only [List.getElem?_map, hif, Option.map_some']
    · intro hno
      rw [OGoalsProbabilities.n_visible_eq_count, ← List.countP_eq_length_filter,
        List.countP_pos_iff]
      exact ⟨f, hmem, by simp [hno]⟩
    · intro hno
      unfold OGoalsProbabilities.n_occluded
      rw [← List.countP_eq_length_filter, List.countP_pos_iff]
      exact ⟨f, hmem, by simp [hno]⟩
  · show OGoalsProbabilities.scalar_occluded_factors_priors
      [⟨[some ⟨0, 0⟩], [true], false, false⟩, ⟨[some ⟨0, 0⟩], [false], false, false⟩]
      (1/10) = [1/10, 9/10]
    unfold OGoalsProbabilities.scalar_occluded_factors_priors
      OGoalsProbabilities.n_visible OGoalsProbabilities.n_occluded
    simp [OccludedFactor.no_occlusions, List.filter]
    norm_num

/-- C6 witness: the theorem applied at the two-hypothesis instance. -/
theorem C6_scalar_priors_witness :
    (OGoalsProbabilities.scalar_occluded_factors_priors
      (OccludedFactor.create_all_instantiations [⟨0, 0⟩] []) (1/10))[0]? =
      some (if (⟨[some ⟨0, 0⟩], [true], false, false⟩ : OccludedFactor).no_occlusions then
        (1 - 1/10) /
          (OGoalsProbabilities.n_visible
            (OccludedFactor.create_all_instantiations [⟨0, 0⟩] []) : ℚ)
      else (1/10) /
        (OGoalsProbabilities.n_occluded
          (OccludedFactor.create_all_instantiations [⟨0, 0⟩] []) : ℚ)) :=
  (((C6_scalar_priors (OccludedFactor.create_all_instantiations [⟨0, 0⟩] [])
    (1/10)).1 0 ⟨[some ⟨0, 0⟩], [true], false, false⟩ (by decide)).1)

/-- A candidate goal, reduced to an identifier plus the two Boolean tests the
recognition update applies to it: `reached_ini` embeds
`goal.reached(frame_ini[agent_id].position)` (the check uses the raw initial
frame, so it does not depend on the occluded factor), and `stopping` embeds
`isinstance(goal, ip.StoppingGoal)`. -/
structure OGoal where
  gid : Nat
  reached_ini : Bool
  stopping : Bool
deriving DecidableEq

namespace OGoalRecognition

/-- The likelihood computed by the `try` block of
`OGoalRecognition.update_goals_probabilities` for one `(goal, factor)` key.
The external A*/smoother/reward pipeline (steps 2-11) is abstracted by the
oracle `raw`: `none` models any `RuntimeError` raised after the reached-goal
check (blocked goal, no feasible trajectory), `some l` a successful
computation with likelihood `l`. The reached-at-start check is the first
statement of the `try` block, so it forces likelihood 0 independently of
`raw`. -/
def computed_likelihood (raw : OGoal → OccludedFactor → Option ℚ)
    (g : OGoal) (f : OccludedFactor) : ℚ :=
  if g.reached_ini && !g.stopping then 0
  else
    match raw g f with
    | none => 0
    | some l => l

/-- The fields of `OGoalsProbabilities` written by the update pass.
Python dictionaries keyed by `(goal, factor)` pairs or factors become total
functions; the keys actually present are `goals ×ˢ factors`. -/
structure BeliefState where
  likelihood : OGoal × OccludedFactor → ℚ
  goals_probabilities : OGoal × OccludedFactor → ℚ
  occluded_factors_probabilities : OccludedFactor → ℚ

/-- Lines 138-142 of `ogoal_recognition.py`: the hypothesis prior used in the
product, with the force-visible/force-invisible overrides. -/
def effective_prior (priors : OccludedFactor → ℚ) (f : OccludedFactor) : ℚ :=
  if f.force_visible then 1 else if f.force_invisible then 0 else priors f

/-- Body of the inner `for goal in goals_probabilities.goals_priors` loop
(lines 73-150): store the likelihood, store the unnormalized posterior
`likelihood * goal prior * (overridden) factor prior`, and add it to the
running `factor_goal_sum` (the second component). -/
def goal_step (goals_priors : OGoal → ℚ) (priors : OccludedFactor → ℚ)
    (lik : OGoal → OccludedFactor → ℚ) (f : OccludedFactor)
    (acc : BeliefState × ℚ) (g : OGoal) : BeliefState × ℚ :=
  let l := lik g f
  let p := l * goals_priors g * effective_prior priors f
  (⟨fun k => if k = (g, f) then l else acc.1.likelihood k,
    fun k => if k = (g, f) then p else acc.1.goals_probabilities k,
    acc.1.occluded_factors_probabilities⟩,
   acc.2 + p)

/-- Body of the outer `for factor in occluded_factors_probabilities` loop
(lines 68-153): run all goals for this factor starting from
`factor_goal_sum = 0`, store the unnormalized sum in
`occluded_factors_probabilities[factor]`, and add it to the running
`norm_factor` (the second component). -/
def factor_step (goals : List OGoal) (goals_priors : OGoal → ℚ)
    (priors : OccludedFactor → ℚ) (lik : OGoal → OccludedFactor → ℚ)
    (acc : BeliefState × ℚ) (f : OccludedFactor) : BeliefState × ℚ :=
  let res := goals.foldl (goal_step goals_priors priors lik f) (acc.1, 0)
  (⟨res.1.likelihood, res.1.goals_probabilities,
    fun f2 => if f2 = f then res.2 else res.1.occluded_factors_probabilities f2⟩,
   acc.2 + res.2)

/-- The scoring phase of `update_goals_probabilities` (lines 65-153); the
second component is the accumulated `norm_factor`. -/
def recognition_pass (goals : List OGoal) (factors : List OccludedFactor)
    (goals_priors : OGoal → ℚ) (priors : OccludedFactor → ℚ)
    (lik : OGoal → OccludedFactor → ℚ) (st0 : BeliefState) : BeliefState × ℚ :=
  factors.foldl (factor_step goals goals_priors priors lik) (st0, 0)

/-- One iteration of the normalization loop (lines 156-165). When
`norm_factor` is zero the first statement of the `try` block raises
`ZeroDivisionError` and the whole body is skipped, so the state is unchanged;
otherwise the factor marginal is divided by `norm_factor` and every key of
this factor is renormalized by the factor's unnormalized sum, falling back to
the goal prior when that sum is exactly zero. -/
def normalize_step (goals_priors : OGoal → ℚ) (norm : ℚ)
    (st : BeliefState) (f : OccludedFactor) : BeliefState :=
  let pz := st.occluded_factors_probabilities f
  if norm = 0 then st
  else
    ⟨st.likelihood,
     fun k =>
       if k.2 = f then
         (if pz ≠ 0 then st.goals_probabilities k / pz else goals_priors k.1)
       else st.goals_probabilities k,
     fun f2 => if f2 = f then pz / norm else st.occluded_factors_probabilities f2⟩

/-- Embedding of `OGoalRecognition.update_goals_probabilities`: the scoring
phase followed by the normalization loop. -/
def update_goals_probabilities (goals : List OGoal)
    (factors : List OccludedFactor) (goals_priors : OGoal → ℚ)
    (priors : OccludedFactor → ℚ) (lik : OGoal → OccludedFactor → ℚ)
    (st0 : BeliefState) : BeliefState :=
  let res := recognition_pass goals factors goals_priors priors lik st0
  factors.foldl (normalize_step goals_priors res.2) res.1

/-- Closed form of the unnormalized posterior of one key. -/
def unnorm_posterior (goals_priors : OGoal → ℚ) (priors : OccludedFactor → ℚ)
    (lik : OGoal → OccludedFactor → ℚ) (g : OGoal) (f : OccludedFactor) : ℚ :=
  lik g f * goals_priors g * effective_prior priors f

/-- Closed form of `factor_goal_sum` for one factor. -/
def factor_goal_sum (goals : List OGoal) (goals_priors : OGoal → ℚ)
    (priors : OccludedFactor → ℚ) (lik : OGoal → OccludedFactor → ℚ)
    (f : OccludedFactor) : ℚ :=
  (goals.map (fun g => unnorm_posterior goals_priors priors lik g f)).sum

/-- Closed form of `norm_factor`. -/
def norm_factor (goals : List OGoal) (factors : List OccludedFactor)
    (goals_priors : OGoal → ℚ) (priors : OccludedFactor → ℚ)
    (lik : OGoal → OccludedFactor → ℚ) : ℚ :=
  (factors.map (factor_goal_sum goals goals_priors priors lik)).sum

end OGoalRecognition

namespace OGoalRecognition

theorem goal_fold_spec (goals_priors : OGoal → ℚ) (priors : OccludedFactor → ℚ)
    (lik : OGoal → OccludedFactor → ℚ) (f : OccludedFactor)
    (goals : List OGoal) :
    ∀ acc : BeliefState × ℚ,
    (goals.foldl (goal_step goals_priors priors lik f) acc).1.occluded_factors_probabilities
        = acc.1.occluded_factors_probabilities ∧
    (goals.foldl (goal_step goals_priors priors lik f) acc).2
        = acc.2 + factor_goal_sum goals goals_priors priors lik f ∧
    (∀ kg kf,
      (goals.foldl (goal_step goals_priors priors lik f) acc).1.goals_probabilities (kg, kf) =
        if kf = f ∧ kg ∈ goals then unnorm_posterior goals_priors priors lik kg f
        else acc.1.goals_probabilities (kg, kf)) ∧
    (∀ kg kf,
      (goals.foldl (goal_step goals_priors priors lik f) acc).1.likelihood (kg, kf) =
        if kf = f ∧ kg ∈ goals then lik kg f
        else acc.1.likelihood (kg, kf)) := by
  induction goals with
  | nil => intro acc; simp [factor_goal_sum, unnorm_posterior]
  | cons g gs ih =>
      intro acc
      simp only [List.foldl_cons]
      obtain ⟨ih1, ih2, ih3, ih4⟩ := ih (goal_step goals_priors priors lik f acc g)
      have ha_ofp : (goal_step goals_priors priors lik f acc g).1.occluded_factors_probabilities
          = acc.1.occluded_factors_probabilities := rfl
      have ha_s : (goal_step goals_priors priors lik f acc g).2
          = acc.2 + unnorm_posterior goals_priors priors lik g f := rfl
      have ha_gp : ∀ kg kf, (goal_step goals_priors priors lik f acc g).1.goals_probabilities (kg, kf)
          = if (kg, kf) = (g, f) then unnorm_posterior goals_priors priors lik g f
            else acc.1.goals_probabilities (kg, kf) := fun kg kf => rfl
      have ha_lik : ∀ kg kf, (goal_step goals_priors priors lik f acc g).1.likelihood (kg, kf)
          = if (kg, kf) = (g, f) then lik g f
            else acc.1.likelihood (kg, kf) := fun kg kf => rfl
      refine ⟨?_, ?_, ?_, ?_⟩
      · rw [ih1, ha_ofp]
      · rw [ih2, ha_s]
        simp only [factor_goal_sum, List.map_cons, List.sum_cons]
        ring
      · intro kg kf
        rw [ih3 kg kf]
        by_cases h1 : kf = f
        · by_cases h2 : kg ∈ gs
          · simp [h1, h2]
          · rw [if_neg (by simp [h2])]
            rw [ha_gp kg kf]
            by_cases h3 : kg = g
            · simp [h1, h3]
            · simp [h1, h2, h3, Prod.mk.injEq]
        · simp only [h1, false_and, if_false]
          rw [ha_gp kg kf]
          simp [Prod.mk.injEq, h1]
      · intro kg kf
        rw [ih4 kg kf]
        by_cases h1 : kf = f
        · by_cases h2 : kg ∈ gs
          · simp [h1, h2]
          · rw [if_neg (by simp [h2])]
            rw [ha_lik kg kf]
            by_cases h3 : kg = g
            · simp [h1, h3]
            · simp [h1, h2, h3, Prod.mk.injEq]
        · simp only [h1, false_and, if_false]
          rw [ha_lik kg kf]
          simp [Prod.mk.injEq, h1]

end OGoalRecognition

namespace OGoalRecognition

theorem factor_fold_spec (goals : List OGoal) (goals_priors : OGoal → ℚ)
    (priors : OccludedFactor → ℚ) (lik : OGoal → OccludedFactor → ℚ)
    (factors : List OccludedFactor) :
    ∀ acc : BeliefState × ℚ,
    (factors.foldl (factor_step goals goals_priors priors lik) acc).2
        = acc.2 + norm_factor goals factors goals_priors priors lik ∧
    (∀ f2,
      (factors.foldl (factor_step goals goals_priors priors lik) acc).1.occluded_factors_probabilities f2 =
        if f2 ∈ factors then factor_goal_sum goals goals_priors priors lik f2
        else acc.1.occluded_factors_probabilities f2) ∧
    (∀ kg kf,
      (factors.foldl (factor_step goals goals_priors priors lik) acc).1.goals_probabilities (kg, kf) =
        if kf ∈ factors ∧ kg ∈ goals then unnorm_posterior goals_priors priors lik kg kf
        else acc.1.goals_probabilities (kg, kf)) ∧
    (∀ kg kf,
      (factors.foldl (factor_step goals goals_priors priors lik) acc).1.likelihood (kg, kf) =
        if kf ∈ factors ∧ kg ∈ goals then lik kg kf
        else acc.1.likelihood (kg, kf)) := by
  induction factors with
  | nil => intro acc; simp [norm_factor]
  | cons f fs ih =>
      intro acc
      simp only [List.foldl_cons]
      obtain ⟨ih2, ihofp, ihgp, ihlik⟩ :=
        ih (factor_step goals goals_priors priors lik acc f)
      obtain ⟨g1, g2, g3, g4⟩ := goal_fold_spec goals_priors priors lik f goals (acc.1, 0)
      have ha2 : (factor_step goals goals_priors priors lik acc f).2
          = acc.2 + factor_goal_sum goals goals_priors priors lik f := by
        show acc.2 + (goals.foldl (goal_step goals_priors priors lik f) (acc.1, 0)).2 = _
        rw [g2]
        ring
      have haofp : ∀ f2,
          (factor_step goals goals_priors priors lik acc f).1.occluded_factors_probabilities f2
          = if f2 = f then factor_goal_sum goals goals_priors priors lik f
            else acc.1.occluded_factors_probabilities f2 := by
        intro f2
        show (if f2 = f then (goals.foldl (goal_step goals_priors priors lik f) (acc.1, 0)).2
            else (goals.foldl (goal_step goals_priors priors lik f) (acc.1, 0)).1.occluded_factors_probabilities f2) = _
        rw [g2, g1]
        simp
      have hagp : ∀ kg kf,
          (factor_step goals goals_priors priors lik acc f).1.goals_probabilities (kg, kf)
          = if kf = f ∧ kg ∈ goals then unnorm_posterior goals_priors priors lik kg f
            else acc.1.goals_probabilities (kg, kf) := by
        intro kg kf
        show (goals.foldl (goal_step goals_priors priors lik f) (acc.1, 0)).1.goals_probabilities (kg, kf) = _
        rw [g3 kg kf]
      have halik : ∀ kg kf,
          (factor_step goals goals_priors priors lik acc f).1.likelihood (kg, kf)
          = if kf = f ∧ kg ∈ goals then lik kg f
            else acc.1.likelihood (kg, kf) := by
        intro kg kf
        show (goals.foldl (goal_step goals_priors priors lik f) (acc.1, 0)).1.likelihood (kg, kf) = _
        rw [g4 kg kf]
      refine ⟨?_, ?_, ?_, ?_⟩
      · rw [ih2, ha2]
        simp only [norm_factor, List.map_cons, List.sum_cons]
        ring
      · intro f2
        rw [ihofp f2]
        by_cases h1 : f2 ∈ fs
        · simp [h1]
        · rw [if_neg h1, haofp f2]
          by_cases h2 : f2 = f
          · simp [h2]
          · simp [h1, h2]
      · intro kg kf
        rw [ihgp kg kf]
        by_cases h1 : kf ∈ fs ∧ kg ∈ goals
        · simp [h1.1, h1.2]
        · rw [if_neg h1, hagp kg kf]
          by_cases h2 : kf = f
          · by_cases h3 : kg ∈ goals
            · simp [h2, h3]
            · simp [h3]
          · have h4 : ¬(kf ∈ f :: fs ∧ kg ∈ goals) := by
              intro hc
              rcases List.mem_cons.mp hc.1 with h5 | h5
              · exact h2 h5
              · exact h1 ⟨h5, hc.2⟩
            rw [if_neg h4, if_neg (fun hc : kf = f ∧ kg ∈ goals => h2 hc.1)]
      · intro kg kf
        rw [ihlik kg kf]
        by_cases h1 : kf ∈ fs ∧ kg ∈ goals
        · simp [h1.1, h1.2]
        · rw [if_neg h1, halik kg kf]
          by_cases h2 : kf = f
          · by_cases h3 : kg ∈ goals
            · simp [h2, h3]
            · simp [h3]
          · have h4 : ¬(kf ∈ f :: fs ∧ kg ∈ goals) := by
              intro hc
              rcases List.mem_cons.mp hc.1 with h5 | h5
              · exact h2 h5
              · exact h1 ⟨h5, hc.2⟩
            rw [if_neg h4, if_neg (fun hc : kf = f ∧ kg ∈ goals => h2 hc.1)]

end OGoalRecognition

namespace OGoalRecognition

theorem normalize_fold_likelihood (goals_priors : OGoal → ℚ) (norm : ℚ)
    (fs : List OccludedFactor) :
    ∀ st : BeliefState,
      (fs.foldl (normalize_step goals_priors norm) st).likelihood = st.likelihood := by
  induction fs with
  | nil => intro st; rfl
  | cons f fs ih =>
      intro st
      rw [List.foldl_cons, ih]
      unfold normalize_step
      split <;> rfl

theorem normalize_fold_frame (goals_priors : OGoal → ℚ) (norm : ℚ)
    (fs : List OccludedFactor) :
    ∀ (st : BeliefState) (f2 : OccludedFactor), f2 ∉ fs →
      ((fs.foldl (normalize_step goals_priors norm) st).occluded_factors_probabilities f2
        = st.occluded_factors_probabilities f2) ∧
      (∀ k : OGoal × OccludedFactor, k.2 = f2 →
        (fs.foldl (normalize_step goals_priors norm) st).goals_probabilities k
          = st.goals_probabilities k) := by
  induction fs with
  | nil => intro st f2 _; exact ⟨rfl, fun k _ => rfl⟩
  | cons f fs ih =>
      intro st f2 hf2
      have hne : f2 ≠ f := fun h => hf2 (h ▸ List.mem_cons_self f fs)
      have hnotin : f2 ∉ fs := fun h => hf2 (List.mem_cons_of_mem f h)
      rw [List.foldl_cons]
      obtain ⟨ihofp, ihgp⟩ := ih (normalize_step goals_priors norm st f) f2 hnotin
      constructor
      · rw [ihofp]
        unfold normalize_step
        split
        · rfl
        · simp [hne]
      · intro k hk
        rw [ihgp k hk]
        unfold normalize_step
        split
        · rfl
        · have : k.2 ≠ f := hk ▸ hne
          simp [this]

theorem normalize_fold_spec (goals_priors : OGoal → ℚ) (norm : ℚ)
    (P : OGoal → Prop) (S : OccludedFactor → ℚ)
    (U : OGoal × OccludedFactor → ℚ) (hnorm : norm ≠ 0) :
    ∀ (fs : List OccludedFactor) (st : BeliefState), fs.Nodup →
    (∀ f ∈ fs, st.occluded_factors_probabilities f = S f) →
    (∀ k : OGoal × OccludedFactor, k.2 ∈ fs → P k.1 → st.goals_probabilities k = U k) →
    ∀ f ∈ fs,
      ((fs.foldl (normalize_step goals_priors norm) st).occluded_factors_probabilities f
        = S f / norm) ∧
      (∀ k : OGoal × OccludedFactor, k.2 = f → P k.1 →
        (fs.foldl (normalize_step goals_priors norm) st).goals_probabilities k =
          if S f = 0 then goals_priors k.1 else U k / S f) := by
  intro fs
  induction fs with
  | nil => intro st _ _ _ f hf; cases hf
  | cons f0 fs ih =>
      intro st hnd h1 h2 f hf
      obtain ⟨hf0nin, hndfs⟩ := List.nodup_cons.mp hnd
      have hne : (norm = 0) = False := eq_false hnorm
      have hst1ofp : ∀ f2, (normalize_step goals_priors norm st f0).occluded_factors_probabilities f2
          = if f2 = f0 then st.occluded_factors_probabilities f0 / norm
            else st.occluded_factors_probabilities f2 := by
        intro f2
        simp [normalize_step, hne]
      have hst1gp : ∀ k : OGoal × OccludedFactor,
          (normalize_step goals_priors norm st f0).goals_probabilities k
          = if k.2 = f0 then
              (if st.occluded_factors_probabilities f0 ≠ 0 then
                st.goals_probabilities k / st.occluded_factors_probabilities f0
              else goals_priors k.1)
            else st.goals_probabilities k := by
        intro k
        simp [normalize_step, hne]
      rw [List.foldl_cons]
      rcases List.mem_cons.mp hf with rfl | hfs
      · obtain ⟨hframe1, hframe2⟩ :=
          normalize_fold_frame goals_priors norm fs
            (normalize_step goals_priors norm st f) f hf0nin
        constructor
        · rw [hframe1, hst1ofp, if_pos rfl, h1 f (List.mem_cons_self f fs)]
        · intro k hk hP
          rw [hframe2 k hk, hst1gp, if_pos hk,
            h1 f (List.mem_cons_self f fs),
            h2 k (hk ▸ List.mem_cons_self f fs) hP]
          by_cases hS : S f = 0
          · simp [hS]
          · simp [hS]
      · have h1' : ∀ f2 ∈ fs, (normalize_step goals_priors norm st f0).occluded_factors_probabilities f2 = S f2 := by
          intro f2 hf2
          rw [hst1ofp, if_neg (fun h : f2 = f0 => hf0nin (h ▸ hf2))]
          exact h1 f2 (List.mem_cons_of_mem f0 hf2)
        have h2' : ∀ k : OGoal × OccludedFactor, k.2 ∈ fs → P k.1 →
            (normalize_step goals_priors norm st f0).goals_probabilities k = U k := by
          intro k hk hP
          rw [hst1gp, if_neg (fun h : k.2 = f0 => hf0nin (h ▸ hk))]
          exact h2 k (List.mem_cons_of_mem f0 hk) hP
        exact ih (normalize_step goals_priors norm st f0) hndfs h1' h2' f hfs

end OGoalRecognition

namespace OGoalRecognition

section RecognitionSpec

variable (goals : List OGoal) (factors : List OccludedFactor)
variable (goals_priors : OGoal → ℚ) (priors : OccludedFactor → ℚ)
variable (lik : OGoal → OccludedFactor → ℚ) (st0 : BeliefState)

theorem update_goals_probabilities_spec (hnd : factors.Nodup)
    (hnorm : norm_factor goals factors goals_priors priors lik ≠ 0) :
    (∀ f ∈ factors,
      (update_goals_probabilities goals factors goals_priors priors lik st0).occluded_factors_probabilities f
        = factor_goal_sum goals goals_priors priors lik f
            / norm_factor goals factors goals_priors priors lik) ∧
    (∀ f ∈ factors, ∀ g ∈ goals,
      (update_goals_probabilities goals factors goals_priors priors lik st0).goals_probabilities (g, f) =
        if factor_goal_sum goals goals_priors priors lik f = 0 then goals_priors g
        else unnorm_posterior goals_priors priors lik g f
            / factor_goal_sum goals goals_priors priors lik f) ∧
    (∀ f ∈ factors, ∀ g ∈ goals,
      (update_goals_probabilities goals factors goals_priors priors lik st0).likelihood (g, f)
        = lik g f) := by
  obtain ⟨hr2, hrofp, hrgp, hrlik⟩ :=
    factor_fold_spec goals goals_priors priors lik factors (st0, 0)
  have hresnorm : (recognition_pass goals factors goals_priors priors lik st0).2
      = norm_factor goals factors goals_priors priors lik := by
    show (factors.foldl (factor_step goals goals_priors priors lik) (st0, 0)).2 = _
    rw [hr2]
    ring
  have h1 : ∀ f ∈ factors,
      (recognition_pass goals factors goals_priors priors lik st0).1.occluded_factors_probabilities f
        = factor_goal_sum goals goals_priors priors lik f := by
    intro f hf
    show (factors.foldl (factor_step goals goals_priors priors lik) (st0, 0)).1.occluded_factors_probabilities f = _
    rw [hrofp f, if_pos hf]
  have h2 : ∀ k : OGoal × OccludedFactor, k.2 ∈ factors → k.1 ∈ goals →
      (recognition_pass goals factors goals_priors priors lik st0).1.goals_probabilities k
        = unnorm_posterior goals_priors priors lik k.1 k.2 := by
    intro k hk hg
    show (factors.foldl (factor_step goals goals_priors priors lik) (st0, 0)).1.goals_probabilities (k.1, k.2) = _
    rw [hrgp k.1 k.2, if_pos ⟨hk, hg⟩]
  have hnorm2 : (recognition_pass goals factors goals_priors priors lik st0).2 ≠ 0 := by
    rw [hresnorm]
    exact hnorm
  have main := normalize_fold_spec goals_priors
    (recognition_pass goals factors goals_priors priors lik st0).2 (· ∈ goals)
    (factor_goal_sum goals goals_priors priors lik)
    (fun k => unnorm_posterior goals_priors priors lik k.1 k.2) hnorm2 factors
    (recognition_pass goals factors goals_priors priors lik st0).1 hnd h1 h2
  have hupdate : update_goals_probabilities goals factors goals_priors priors lik st0 =
      factors.foldl
        (normalize_step goals_priors (recognition_pass goals factors goals_priors priors lik st0).2)
        (recognition_pass goals factors goals_priors priors lik st0).1 := rfl
  refine ⟨?_, ?_, ?_⟩
  · intro f hf
    rw [hupdate, (main f hf).1, hresnorm]
  · intro f hf g hg
    have hk := (main f hf).2 (g, f) rfl hg
    rw [hupdate, hk]
  · intro f hf g hg
    rw [hupdate, normalize_fold_likelihood]
    show (factors.foldl (factor_step goals goals_priors priors lik) (st0, 0)).1.likelihood (g, f) = _
    rw [hrlik g f, if_pos ⟨hf, hg⟩]

end RecognitionSpec

end OGoalRecognition

theorem list_sum_map_div {α : Type} (l : List α) (h : α → ℚ) (c : ℚ) :
    (l.map (fun x => h x / c)).sum = (l.map h).sum / c := by
  induction l with
  | nil => simp
  | cons a as ih => simp [ih, add_div]

/-- C1: after a full update pass with nonzero total unnormalized mass, the
per-hypothesis marginals stored in `occluded_factors_probabilities` sum to 1;
for every hypothesis with positive marginal the goal posteriors of its keys
sum to 1; and a hypothesis whose unnormalized sum is exactly zero has its goal
posteriors set to the original goal priors. -/
theorem C1_two_level_normalization (goals : List OGoal)
    (factors : List OccludedFactor) (goals_priors : OGoal → ℚ)
    (priors : OccludedFactor → ℚ) (lik : OGoal → OccludedFactor → ℚ)
    (st0 : OGoalRecognition.BeliefState) (hnd : factors.Nodup)
    (hnorm : OGoalRecognition.norm_factor goals factors goals_priors priors lik ≠ 0) :
    ((factors.map
      (OGoalRecognition.update_goals_probabilities goals factors goals_priors priors lik
        st0).occluded_factors_probabilities).sum = 1) ∧
    (∀ f ∈ factors,
      0 < (OGoalRecognition.update_goals_probabilities goals factors goals_priors priors lik
        st0).occluded_factors_probabilities f →
      (goals.map (fun g =>
        (OGoalRecognition.update_goals_probabilities goals factors goals_priors priors lik
          st0).goals_probabilities (g, f))).sum = 1) ∧
    (∀ f ∈ factors,
      OGoalRecognition.factor_goal_sum goals goals_priors priors lik f = 0 →
      ∀ g ∈ goals,
        (OGoalRecognition.update_goals_probabilities goals factors goals_priors priors lik
          st0).goals_probabilities (g, f) = goals_priors g) := by
  obtain ⟨hofp, hgp, -⟩ :=
    OGoalRecognition.update_goals_probabilities_spec goals factors goals_priors priors lik
      st0 hnd hnorm
  refine ⟨?_, ?_, ?_⟩
  · have hmap : factors.map
        (OGoalRecognition.update_goals_probabilities goals factors goals_priors priors lik
          st0).occluded_factors_probabilities
        = factors.map (fun f =>
            OGoalRecognition.factor_goal_sum goals goals_priors priors lik f
              / OGoalRecognition.norm_factor goals factors goals_priors priors lik) :=
      List.map_eq_map_iff.mpr hofp
    rw [hmap, list_sum_map_div]
    exact div_self hnorm
  · intro f hf hpos
    have hfgs : OGoalRecognition.factor_goal_sum goals goals_priors priors lik f ≠ 0 := by
      intro h0
      rw [hofp f hf, h0, zero_div] at hpos
      exact lt_irrefl 0 hpos
    have hmap : goals.map (fun g =>
        (OGoalRecognition.update_goals_probabilities goals factors goals_priors priors lik
          st0).goals_probabilities (g, f))
        = goals.map (fun g =>
            OGoalRecognition.unnorm_posterior goals_priors priors lik g f
              / OGoalRecognition.factor_goal_sum goals goals_priors priors lik f) := by
      apply List.map_eq_map_iff.mpr
      intro g hg
      rw [hgp f hf g hg, if_neg hfgs]
    rw [hmap, list_sum_map_div]
    exact div_self hfgs
  · intro f hf h0 g hg
    rw [hgp f hf g hg, if_pos h0]

/-- C1 witness: one goal, the two hypotheses of a single occludable element,
uniform goal prior, the default scalar priors, likelihood 1 everywhere. -/
theorem C1_two_level_normalization_witness :
    (([⟨[some ⟨0, 0⟩], [true], false, false⟩,
       ⟨[some ⟨0, 0⟩], [false], false, false⟩] : List OccludedFactor).map
      (OGoalRecognition.update_goals_probabilities [⟨0, false, false⟩]
        [⟨[some ⟨0, 0⟩], [true], false, false⟩, ⟨[some ⟨0, 0⟩], [false], false, false⟩]
        (fun _ => 1) (fun f => if f.no_occlusions then 9/10 else 1/10) (fun _ _ => 1)
        ⟨fun _ => 0, fun _ => 1/2, fun _ => 0⟩).occluded_factors_probabilities).sum = 1 :=
  (C1_two_level_normalization [⟨0, false, false⟩]
    [⟨[some ⟨0, 0⟩], [true], false, false⟩, ⟨[some ⟨0, 0⟩], [false], false, false⟩]
    (fun _ => 1) (fun f => if f.no_occlusions then 9/10 else 1/10) (fun _ _ => 1)
    ⟨fun _ => 0, fun _ => 1/2, fun _ => 0⟩ (by decide)
    (by
      unfold OGoalRecognition.norm_factor OGoalRecognition.factor_goal_sum
        OGoalRecognition.unnorm_posterior OGoalRecognition.effective_prior
      simp [OccludedFactor.no_occlusions]
      norm_num)).1

/-- C7: during the recognition update, each key's unnormalized posterior is
`likelihood * goal prior * hypothesis prior`, where the hypothesis prior is
replaced by 1 for a force-visible hypothesis and by 0 for a force-invisible
one, regardless of the configured prior function. -/
theorem C7_force_override_posterior (goals : List OGoal)
    (factors : List OccludedFactor) (goals_priors : OGoal → ℚ)
    (priors : OccludedFactor → ℚ) (lik : OGoal → OccludedFactor → ℚ)
    (st0 : OGoalRecognition.BeliefState) (g : OGoal) (f : OccludedFactor)
    (hg : g ∈ goals) (hf : f ∈ factors) :
    (OGoalRecognition.recognition_pass goals factors goals_priors priors lik
        st0).1.goals_probabilities (g, f) =
      lik g f * goals_priors g *
        (if f.force_visible then 1 else if f.force_invisible then 0 else priors f) := by
  obtain ⟨-, -, hrgp, -⟩ :=
    OGoalRecognition.factor_fold_spec goals goals_priors priors lik factors (st0, 0)
  show (factors.foldl (OGoalRecognition.factor_step goals goals_priors priors lik)
    (st0, 0)).1.goals_probabilities (g, f) = _
  rw [hrgp g f, if_pos ⟨hf, hg⟩]
  rfl

/-- C7 witness: a force-visible hypothesis with a scalar prior of 1/10 still
contributes prior 1 to the product. -/
theorem C7_force_override_posterior_witness :
    (OGoalRecognition.recognition_pass [⟨0, false, false⟩]
        [⟨[some ⟨3, 4⟩], [true], true, false⟩] (fun _ => 1/3) (fun _ => 1/10)
        (fun _ _ => 1/2)
        ⟨fun _ => 0, fun _ => 1, fun _ => 0⟩).1.goals_probabilities
      (⟨0, false, false⟩, ⟨[some ⟨3, 4⟩], [true], true, false⟩) =
      (1/2 : ℚ) * (1/3) *
        (if (⟨[some ⟨3, 4⟩], [true], true, false⟩ : OccludedFactor).force_visible then 1
        else if (⟨[some ⟨3, 4⟩], [true], true, false⟩ : OccludedFactor).force_invisible then 0
        else 1/10) :=
  C7_force_override_posterior [⟨0, false, false⟩]
    [⟨[some ⟨3, 4⟩], [true], true, false⟩] (fun _ => 1/3) (fun _ => 1/10)
    (fun _ _ => 1/2) ⟨fun _ => 0, fun _ => 1, fun _ => 0⟩ _ _
    (List.mem_singleton.mpr rfl) (List.mem_singleton.mpr rfl)

/-- Concrete feasible goal used in several concrete instances. -/
def gFeasible : OGoal := ⟨0, false, false⟩

/-- Concrete present-element hypothesis over a single occludable element. -/
def fPresent : OccludedFactor := ⟨[some ⟨0, 0⟩], [true], false, false⟩

/-- Concrete absent-element (no-occlusion) hypothesis over the same element. -/
def fAbsent : OccludedFactor := ⟨[some ⟨0, 0⟩], [false], false, false⟩

/-- The default scalar-prior function for the two-hypothesis space above
(`pz = 1/10`, as produced by `OGoalsProbabilities.__init__`). -/
def prTwo : OccludedFactor → ℚ := fun f => if f.no_occlusions then 9/10 else 1/10

/-- A belief-table state with arbitrary initial contents (the update pass
overwrites every key it touches, so the claims hold for any start state). -/
def stAny : OGoalRecognition.BeliefState := ⟨fun _ => 0, fun _ => 1/2, fun _ => 0⟩

/-- C5 counterexample: one goal, two hypotheses, every key feasible with
likelihood 1. The total unnormalized mass is 1 (nonzero, all keys feasible),
yet the stored posterior summed over the table's two keys is 2, not 1: the
stored per-key values are conditionals `p(g|h)`, not joint probabilities. -/
theorem C5_counterexample :
    OGoalRecognition.norm_factor [gFeasible] [fPresent, fAbsent] (fun _ => 1) prTwo
        (OGoalRecognition.computed_likelihood (fun _ _ => some 1)) = 1 ∧
    ([(gFeasible, fPresent), (gFeasible, fAbsent)].map
      (OGoalRecognition.update_goals_probabilities [gFeasible] [fPresent, fAbsent]
        (fun _ => 1) prTwo (OGoalRecognition.computed_likelihood (fun _ _ => some 1))
        stAny).goals_probabilities).sum = 2 := by
  have hfgsP : OGoalRecognition.factor_goal_sum [gFeasible] (fun _ => 1) prTwo
      (OGoalRecognition.computed_likelihood (fun _ _ => some 1)) fPresent = 1/10 := by
    unfold OGoalRecognition.factor_goal_sum OGoalRecognition.unnorm_posterior
      OGoalRecognition.effective_prior OGoalRecognition.computed_likelihood
      gFeasible fPresent prTwo
    simp [OccludedFactor.no_occlusions]
  have hfgsA : OGoalRecognition.factor_goal_sum [gFeasible] (fun _ => 1) prTwo
      (OGoalRecognition.computed_likelihood (fun _ _ => some 1)) fAbsent = 9/10 := by
    unfold OGoalRecognition.factor_goal_sum OGoalRecognition.unnorm_posterior
      OGoalRecognition.effective_prior OGoalRecognition.computed_likelihood
      gFeasible fAbsent prTwo
    simp [OccludedFactor.no_occlusions]
  have hnorm : OGoalRecognition.norm_factor [gFeasible] [fPresent, fAbsent] (fun _ => 1)
      prTwo (OGoalRecognition.computed_likelihood (fun _ _ => some 1)) = 1 := by
    unfold OGoalRecognition.norm_factor
    rw [List.map_cons, List.map_cons, List.map_nil, List.sum_cons, List.sum_cons,
      List.sum_nil, hfgsP, hfgsA]
    norm_num
  refine ⟨hnorm, ?_⟩
  obtain ⟨-, hgp, -⟩ :=
    OGoalRecognition.update_goals_probabilities_spec [gFeasible] [fPresent, fAbsent]
      (fun _ => 1) prTwo (OGoalRecognition.computed_likelihood (fun _ _ => some 1))
      stAny (by decide) (by rw [hnorm]; norm_num)
  have h1 := hgp fPresent (by simp) gFeasible (by simp)
  have h2 := hgp fAbsent (by simp) gFeasible (by simp)
  rw [if_neg (by rw [hfgsP]; norm_num), hfgsP] at h1
  rw [if_neg (by rw [hfgsA]; norm_num), hfgsA] at h2
  have hu1 : OGoalRecognition.unnorm_posterior (fun _ => (1:ℚ)) prTwo
      (OGoalRecognition.computed_likelihood (fun _ _ => some 1)) gFeasible fPresent = 1/10 := by
    unfold OGoalRecognition.unnorm_posterior OGoalRecognition.effective_prior
      OGoalRecognition.computed_likelihood gFeasible fPresent prTwo
    simp [OccludedFactor.no_occlusions]
  have hu2 : OGoalRecognition.unnorm_posterior (fun _ => (1:ℚ)) prTwo
      (OGoalRecognition.computed_likelihood (fun _ _ => some 1)) gFeasible fAbsent = 9/10 := by
    unfold OGoalRecognition.unnorm_posterior OGoalRecognition.effective_prior
      OGoalRecognition.computed_likelihood gFeasible fAbsent prTwo
    simp [OccludedFactor.no_occlusions]
  rw [List.map_cons, List.map_cons, List.map_nil, List.sum_cons, List.sum_cons,
    List.sum_nil, h1, h2, hu1, hu2]
  norm_num

/-- C5 amended: the stored per-key posterior is conditional on the hypothesis,
so after an update with nonzero total mass the posterior summed over all keys
weighted by the stored hypothesis marginals — the reconstructed joint
distribution — equals 1 (the unweighted sum over all keys instead equals one
per hypothesis with positive marginal). -/
theorem C5_joint_mass_one (goals : List OGoal) (factors : List OccludedFactor)
    (goals_priors : OGoal → ℚ) (priors : OccludedFactor → ℚ)
    (lik : OGoal → OccludedFactor → ℚ) (st0 : OGoalRecognition.BeliefState)
    (hnd : factors.Nodup)
    (hnorm : OGoalRecognition.norm_factor goals factors goals_priors priors lik ≠ 0) :
    (factors.map (fun f =>
      (OGoalRecognition.update_goals_probabilities goals factors goals_priors priors lik
        st0).occluded_factors_probabilities f *
      (goals.map (fun g =>
        (OGoalRecognition.update_goals_probabilities goals factors goals_priors priors lik
          st0).goals_probabilities (g, f))).sum)).sum = 1 := by
  obtain ⟨hofp, hgp, -⟩ :=
    OGoalRecognition.update_goals_probabilities_spec goals factors goals_priors priors lik
      st0 hnd hnorm
  have hmap : factors.map (fun f =>
      (OGoalRecognition.update_goals_probabilities goals factors goals_priors priors lik
        st0).occluded_factors_probabilities f *
      (goals.map (fun g =>
        (OGoalRecognition.update_goals_probabilities goals factors goals_priors priors lik
          st0).goals_probabilities (g, f))).sum)
      = factors.map (fun f =>
          OGoalRecognition.factor_goal_sum goals goals_priors priors lik f
            / OGoalRecognition.norm_factor goals factors goals_priors priors lik) := by
    apply List.map_eq_map_iff.mpr
    intro f hf
    by_cases hS : OGoalRecognition.factor_goal_sum goals goals_priors priors lik f = 0
    · rw [hofp f hf, hS, zero_div, zero_mul]
    · have hinner : goals.map (fun g =>
          (OGoalRecognition.update_goals_probabilities goals factors goals_priors priors lik
            st0).goals_probabilities (g, f))
          = goals.map (fun g =>
              OGoalRecognition.unnorm_posterior goals_priors priors lik g f
                / OGoalRecognition.factor_goal_sum goals goals_priors priors lik f) := by
        apply List.map_eq_map_iff.mpr
        intro g hg
        rw [hgp f hf g hg, if_neg hS]
      rw [hofp f hf, hinner, list_sum_map_div]
      have : ((goals.map (fun g =>
          OGoalRecognition.unnorm_posterior goals_priors priors lik g f)).sum
            / OGoalRecognition.factor_goal_sum goals goals_priors priors lik f) = 1 :=
        div_self hS
      rw [this, mul_one]
  rw [hmap, list_sum_map_div]
  exact div_self hnorm

/-- C5 amended witness: on the C5 counterexample instance the joint mass is 1
even though the raw key sum is 2. -/
theorem C5_joint_mass_one_witness :
    (([fPresent, fAbsent] : List OccludedFactor).map (fun f =>
      (OGoalRecognition.update_goals_probabilities [gFeasible] [fPresent, fAbsent]
        (fun _ => 1) prTwo (OGoalRecognition.computed_likelihood (fun _ _ => some 1))
        stAny).occluded_factors_probabilities f *
      ([gFeasible].map (fun g =>
        (OGoalRecognition.update_goals_probabilities [gFeasible] [fPresent, fAbsent]
          (fun _ => 1) prTwo (OGoalRecognition.computed_likelihood (fun _ _ => some 1))
          stAny).goals_probabilities (g, f))).sum)).sum = 1 :=
  C5_joint_mass_one [gFeasible] [fPresent, fAbsent] (fun _ => 1) prTwo
    (OGoalRecognition.computed_likelihood (fun _ _ => some 1)) stAny (by decide)
    (by rw [C5_counterexample.1]; norm_num)

/-- A goal that is already reached at the agent's initial frame and is not a
stopping goal. -/
def gReached : OGoal := ⟨0, true, false⟩

/-- A second, feasible goal. -/
def gOther : OGoal := ⟨1, false, false⟩

/-- Planner-oracle outcomes for the reached-goal instance: the feasible goal
has a trajectory only under the present-element hypothesis. -/
def rawC8 : OGoal → OccludedFactor → Option ℚ :=
  fun g f => if g.gid == 1 && !f.no_occlusions then some 1 else none

theorem fgs_fPresent_C8 :
    OGoalRecognition.factor_goal_sum [gReached, gOther] (fun _ => 1/2) prTwo
      (OGoalRecognition.computed_likelihood rawC8) fPresent = 1/20 := by
  unfold OGoalRecognition.factor_goal_sum OGoalRecognition.unnorm_posterior
    OGoalRecognition.effective_prior OGoalRecognition.computed_likelihood
    gReached gOther fPresent prTwo rawC8
  simp [OccludedFactor.no_occlusions]
  norm_num

theorem fgs_fAbsent_C8 :
    OGoalRecognition.factor_goal_sum [gReached, gOther] (fun _ => 1/2) prTwo
      (OGoalRecognition.computed_likelihood rawC8) fAbsent = 0 := by
  unfold OGoalRecognition.factor_goal_sum OGoalRecognition.unnorm_posterior
    OGoalRecognition.effective_prior OGoalRecognition.computed_likelihood
    gReached gOther fAbsent prTwo rawC8
  simp [OccludedFactor.no_occlusions]

theorem norm_factor_C8 :
    OGoalRecognition.norm_factor [gReached, gOther] [fPresent, fAbsent] (fun _ => 1/2)
      prTwo (OGoalRecognition.computed_likelihood rawC8) = 1/20 := by
  unfold OGoalRecognition.norm_factor
  rw [List.map_cons, List.map_cons, List.map_nil, List.sum_cons, List.sum_cons,
    List.sum_nil, fgs_fPresent_C8, fgs_fAbsent_C8]
  norm_num

/-- C8 counterexample: a goal reached at the initial frame (not a stopping
goal) does get likelihood 0 under both hypotheses, but its stored posterior
under the hypothesis whose whole unnormalized sum is zero falls back to the
goal prior 1/2 rather than collapsing to 0, refuting the claim that the
posterior is 0 for every key of the reached goal. -/
theorem C8_counterexample :
    gReached.reached_ini = true ∧ gReached.stopping = false ∧
    OGoalRecognition.norm_factor [gReached, gOther] [fPresent, fAbsent] (fun _ => 1/2)
      prTwo (OGoalRecognition.computed_likelihood rawC8) ≠ 0 ∧
    (OGoalRecognition.update_goals_probabilities [gReached, gOther] [fPresent, fAbsent]
      (fun _ => 1/2) prTwo (OGoalRecognition.computed_likelihood rawC8)
      stAny).likelihood (gReached, fPresent) = 0 ∧
    (OGoalRecognition.update_goals_probabilities [gReached, gOther] [fPresent, fAbsent]
      (fun _ => 1/2) prTwo (OGoalRecognition.computed_likelihood rawC8)
      stAny).likelihood (gReached, fAbsent) = 0 ∧
    (OGoalRecognition.update_goals_probabilities [gReached, gOther] [fPresent, fAbsent]
      (fun _ => 1/2) prTwo (OGoalRecognition.computed_likelihood rawC8)
      stAny).goals_probabilities (gReached, fAbsent) = 1/2 ∧
    (OGoalRecognition.update_goals_probabilities [gReached, gOther] [fPresent, fAbsent]
      (fun _ => 1/2) prTwo (OGoalRecognition.computed_likelihood rawC8)
      stAny).goals_probabilities (gReached, fAbsent) ≠ 0 := by
  have hnorm : OGoalRecognition.norm_factor [gReached, gOther] [fPresent, fAbsent]
      (fun _ => 1/2) prTwo (OGoalRecognition.computed_likelihood rawC8) ≠ 0 := by
    rw [norm_factor_C8]
    norm_num
  obtain ⟨-, hgp, hlik⟩ :=
    OGoalRecognition.update_goals_probabilities_spec [gReached, gOther]
      [fPresent, fAbsent] (fun _ => 1/2) prTwo
      (OGoalRecognition.computed_likelihood rawC8) stAny (by decide) hnorm
  have hl0 : OGoalRecognition.computed_likelihood rawC8 gReached fPresent = 0 := by
    unfold OGoalRecognition.computed_likelihood gReached
    simp
  have hl1 : OGoalRecognition.computed_likelihood rawC8 gReached fAbsent = 0 := by
    unfold OGoalRecognition.computed_likelihood gReached
    simp
  have hpost := hgp fAbsent (by simp) gReached (by simp)
  rw [if_pos fgs_fAbsent_C8] at hpost
  refine ⟨rfl, rfl, hnorm, ?_, ?_, ?_, ?_⟩
  · rw [hlik fPresent (by simp) gReached (by simp), hl0]
  · rw [hlik fAbsent (by simp) gReached (by simp), hl1]
  · rw [hpost]
  · rw [hpost]
    norm_num

/-- C8 amended: a goal reached at the initial frame (and not a stopping goal)
gets stored likelihood exactly 0 under every hypothesis; after normalization
with nonzero total mass, its posterior is 0 for every hypothesis whose
unnormalized sum is nonzero (for a hypothesis with zero unnormalized sum the
goal-prior fallback of the normalization loop applies instead). -/
theorem C8_reached_goal_zeroed (goals : List OGoal)
    (factors : List OccludedFactor) (goals_priors : OGoal → ℚ)
    (priors : OccludedFactor → ℚ) (raw : OGoal → OccludedFactor → Option ℚ)
    (st0 : OGoalRecognition.BeliefState) (g : OGoal) (hg : g ∈ goals)
    (hreach : g.reached_ini = true) (hstop : g.stopping = false)
    (hnd : factors.Nodup)
    (hnorm : OGoalRecognition.norm_factor goals factors goals_priors priors
      (OGoalRecognition.computed_likelihood raw) ≠ 0) :
    (∀ f ∈ factors,
      (OGoalRecognition.update_goals_probabilities goals factors goals_priors priors
        (OGoalRecognition.computed_likelihood raw) st0).likelihood (g, f) = 0) ∧
    (∀ f ∈ factors,
      OGoalRecognition.factor_goal_sum goals goals_priors priors
        (OGoalRecognition.computed_likelihood raw) f ≠ 0 →
      (OGoalRecognition.update_goals_probabilities goals factors goals_priors priors
        (OGoalRecognition.computed_likelihood raw) st0).goals_probabilities (g, f) = 0) := by
  obtain ⟨-, hgp, hlik⟩ :=
    OGoalRecognition.update_goals_probabilities_spec goals factors goals_priors priors
      (OGoalRecognition.computed_likelihood raw) st0 hnd hnorm
  have hzero : ∀ f, OGoalRecognition.computed_likelihood raw g f = 0 := by
    intro f
    unfold OGoalRecognition.computed_likelihood
    rw [hreach, hstop]
    simp
  constructor
  · intro f hf
    rw [hlik f hf g hg, hzero f]
  · intro f hf hS
    rw [hgp f hf g hg, if_neg hS]
    unfold OGoalRecognition.unnorm_posterior
    rw [hzero f, zero_mul, zero_mul, zero_div]

/-- C8 amended witness: on the concrete reached-goal instance, the posterior
of the reached goal under the hypothesis with nonzero unnormalized sum is 0. -/
theorem C8_reached_goal_zeroed_witness :
    (OGoalRecognition.update_goals_probabilities [gReached, gOther] [fPresent, fAbsent]
      (fun _ => 1/2) prTwo (OGoalRecognition.computed_likelihood rawC8)
      stAny).likelihood (gReached, fPresent) = 0 ∧
    (OGoalRecognition.update_goals_probabilities [gReached, gOther] [fPresent, fAbsent]
      (fun _ => 1/2) prTwo (OGoalRecognition.computed_likelihood rawC8)
      stAny).goals_probabilities (gReached, fPresent) = 0 :=
  ⟨(C8_reached_goal_zeroed [gReached, gOther] [fPresent, fAbsent] (fun _ => 1/2) prTwo
      rawC8 stAny gReached (by simp) rfl rfl (by decide)
      (by rw [norm_factor_C8]; norm_num)).1 fPresent (by simp),
   (C8_reached_goal_zeroed [gReached, gOther] [fPresent, fAbsent] (fun _ => 1/2) prTwo
      rawC8 stAny gReached (by simp) rfl rfl (by decide)
      (by rw [norm_factor_C8]; norm_num)).2 fPresent (by simp)
      (by rw [fgs_fPresent_C8]; norm_num)⟩

/-- A super-root action: the literal `"Root"` string for the no-occlusion
branch, or an occluded-factor object. The Python code mixes the sentinel
string and factor objects in one list; string/object comparison is never
true, which the tagged type reflects structurally. -/
inductive OAction where
  | root : OAction
  | factor (f : OccludedFactor) : OAction
deriving DecidableEq

/-- The super-root node of an `OTree`: its action list, per-action visit
counts and state-visit counter (the fields of `ip.Node` that
`OTree.set_occlusions` reads and writes). -/
structure SuperNode where
  actions : List OAction
  action_visits : List Nat
  state_visits : Nat
deriving DecidableEq

/-- The `OTree` state needed by `set_occlusions`: the super-root node and the
set of materialized child branches (the keys `("Super", str(action))` present
in the tree; `("Super", "Root")` is registered at construction). The current
root is the super-root, as guaranteed between rollouts by `backprop` and
`select_plan` resetting `self._root` to `("Super",)`. -/
structure OTreeState where
  super : SuperNode
  children : List OAction
deriving DecidableEq

namespace OTree

/-- `OTree.__init__`: one super-root action per occluded factor, `"Root"` for
a no-occlusion factor; `expand()` initializes the visit counters to zero. -/
def init (occluded_factors : List OccludedFactor) : OTreeState :=
  ⟨⟨occluded_factors.map (fun of =>
      if of.no_occlusions then OAction.root else OAction.factor of),
    List.replicate occluded_factors.length 0, 0⟩,
   [OAction.root]⟩

/-- The visit count of one super-root action
(`action_visits[actions.index(a)]`). -/
def visits_of (sr : SuperNode) (a : OAction) : Nat :=
  sr.action_visits.getD (sr.actions.indexOf a) 0

/-- The nested `pick_action` closure of `set_occlusions`: deterministically
select the action matching the factor (`"Root"` when it has no occlusions)
and increment its visit count. -/
def pick_action (sr : SuperNode) (occluded_factor : OccludedFactor) :
    SuperNode × OAction :=
  let a := if occluded_factor.no_occlusions then OAction.root
    else OAction.factor occluded_factor
  let idx := sr.actions.indexOf a
  (⟨sr.actions, sr.action_visits.set idx (sr.action_visits.getD idx 0 + 1),
    sr.state_visits⟩, a)

/-- Embedding of `OTree.set_occlusions`. The action-selection policy
(`self.select_action`, an igp2 component) is the abstract parameter `select`;
the returned triple is the updated tree state, the selected super-root action
(the branch installed as the current root), and the `hide_occluded` flag.
The contents of a newly materialized child node (the factor-updated frame and
the copied action list) are not tracked, only its key: the selection, the
visit counts and the returned flag do not depend on them. -/
def set_occlusions (select : SuperNode → OAction) (t : OTreeState)
    (occluded_factor : OccludedFactor) (allow_hide_occluded : Bool) :
    OTreeState × OAction × Bool :=
  let sr0 : SuperNode := ⟨t.super.actions, t.super.action_visits,
    t.super.state_visits + 1⟩
  let picked :=
    if occluded_factor.no_occlusions ∨ visits_of sr0 OAction.root = 0 then
      pick_action sr0 occluded_factor
    else if allow_hide_occluded then (sr0, select sr0)
    else pick_action sr0 occluded_factor
  let children :=
    if picked.2 ∈ t.children then t.children else t.children ++ [picked.2]
  let hide := allow_hide_occluded && !occluded_factor.no_occlusions &&
    (picked.2 == OAction.root)
  (⟨picked.1, children⟩, picked.2, hide)

end OTree

/-- C3: `set_occlusions` returns `hide_occluded = true` exactly when the
sampled factor has occlusions, concealment is allowed, and the `"Root"`
branch was selected; with a no-occlusion factor it always selects `"Root"`
and returns `false` whatever the visit counts; with concealment disallowed it
never returns `true`. -/
theorem C3_concealment_flag (select : SuperNode → OAction) (t : OTreeState)
    (occluded_factor : OccludedFactor) (allow_hide_occluded : Bool) :
    ((OTree.set_occlusions select t occluded_factor allow_hide_occluded).2.2 = true ↔
      (occluded_factor.no_occlusions = false ∧ allow_hide_occluded = true ∧
        (OTree.set_occlusions select t occluded_factor allow_hide_occluded).2.1
          = OAction.root)) ∧
    (occluded_factor.no_occlusions = true →
      (OTree.set_occlusions select t occluded_factor allow_hide_occluded).2.1
          = OAction.root ∧
      (OTree.set_occlusions select t occluded_factor allow_hide_occluded).2.2
          = false) ∧
    (allow_hide_occluded = false →
      (OTree.set_occlusions select t occluded_factor allow_hide_occluded).2.2
          = false) := by
  unfold OTree.set_occlusions OTree.pick_action
  by_cases hno : occluded_factor.no_occlusions
  · simp [hno]
  · by_cases hroot : OTree.visits_of
        ⟨t.super.actions, t.super.action_visits, t.super.state_visits + 1⟩
        OAction.root = 0
    · simp only [hno, hroot, false_or, if_true, if_pos]
      simp [hno]
    · by_cases hallow : allow_hide_occluded
      · simp only [hno, hroot, false_or, if_false, if_neg, hallow, if_true]
        simp only [Bool.not_eq_true] at hno
        simp [hno, hallow]
      · simp only [Bool.not_eq_true] at hallow
        simp only [hno, hroot, false_or, if_false, hallow]
        simp [hno]

/-- C3 witness: with the no-occlusion hypothesis the `"Root"` branch is
selected and concealment is reported false. -/
theorem C3_concealment_flag_witness :
    (OTree.set_occlusions (fun _ => OAction.root) (OTree.init [fPresent, fAbsent])
      fAbsent true).2.1 = OAction.root ∧
    (OTree.set_occlusions (fun _ => OAction.root) (OTree.init [fPresent, fAbsent])
      fAbsent true).2.2 = false :=
  (C3_concealment_flag (fun _ => OAction.root) (OTree.init [fPresent, fAbsent])
    fAbsent true).2.1 (by decide)

/-- C4 amended: whenever the sampled hypothesis is the no-occlusion one or
the `"Root"` action has never been visited, the matching action is selected
deterministically, its visit count is incremented, and the outcome does not
depend on the action-selection policy (so the policy is never consulted
before `"Root"` has been visited). -/
theorem C4_deterministic_until_root_visited (s1 s2 : SuperNode → OAction)
    (t : OTreeState) (occluded_factor : OccludedFactor) (allow : Bool)
    (hmem : (if occluded_factor.no_occlusions then OAction.root
      else OAction.factor occluded_factor) ∈ t.super.actions)
    (hlen : t.super.action_visits.length = t.super.actions.length)
    (hguard : occluded_factor.no_occlusions = true ∨
      OTree.visits_of t.super OAction.root = 0) :
    (OTree.set_occlusions s1 t occluded_factor allow).2.1
      = (if occluded_factor.no_occlusions then OAction.root
          else OAction.factor occluded_factor) ∧
    OTree.visits_of (OTree.set_occlusions s1 t occluded_factor allow).1.super
      (if occluded_factor.no_occlusions then OAction.root
        else OAction.factor occluded_factor)
      = OTree.visits_of t.super
          (if occluded_factor.no_occlusions then OAction.root
            else OAction.factor occluded_factor) + 1 ∧
    OTree.set_occlusions s1 t occluded_factor allow
      = OTree.set_occlusions s2 t occluded_factor allow := by
  have hguard' : (occluded_factor.no_occlusions = true) ∨
      OTree.visits_of ⟨t.super.actions, t.super.action_visits,
        t.super.state_visits + 1⟩ OAction.root = 0 := hguard
  have hidx : t.super.actions.indexOf
      (if occluded_factor.no_occlusions then OAction.root
        else OAction.factor occluded_factor) < t.super.action_visits.length := by
    rw [hlen]
    exact List.indexOf_lt_length.mpr hmem
  simp only [OTree.set_occlusions]
  rw [if_pos hguard', if_pos hguard']
  simp only [OTree.pick_action]
  refine ⟨True.intro, ?_, True.intro⟩
  simp [OTree.visits_of, List.getD, List.getElem?_set, hidx]

/-- C4 witness: first visit of an occluding hypothesis branch with `"Root"`
still unvisited is deterministic under two different policies. -/
theorem C4_deterministic_until_root_visited_witness :
    (OTree.set_occlusions (fun _ => OAction.root) (OTree.init [fPresent, fAbsent])
      fPresent true).2.1
      = (if fPresent.no_occlusions then OAction.root else OAction.factor fPresent) ∧
    OTree.visits_of (OTree.set_occlusions (fun _ => OAction.root)
      (OTree.init [fPresent, fAbsent]) fPresent true).1.super
      (if fPresent.no_occlusions then OAction.root else OAction.factor fPresent)
      = OTree.visits_of (OTree.init [fPresent, fAbsent]).super
          (if fPresent.no_occlusions then OAction.root
            else OAction.factor fPresent) + 1 ∧
    OTree.set_occlusions (fun _ => OAction.root) (OTree.init [fPresent, fAbsent])
      fPresent true
      = OTree.set_occlusions (fun _ => OAction.factor fPresent)
          (OTree.init [fPresent, fAbsent]) fPresent true :=
  C4_deterministic_until_root_visited (fun _ => OAction.root)
    (fun _ => OAction.factor fPresent) (OTree.init [fPresent, fAbsent]) fPresent true
    (by decide) (by decide) (Or.inr (by decide))

/-- C4 counterexample: after one rollout with the no-occlusion hypothesis,
`"Root"` has been visited once while the present-element branch has never
been visited; the very next call with the present-element hypothesis already
consults the policy — two different policies produce different concealment
results — refuting the claim that the policy is never consulted before every
hypothesis branch has been explored at least once. -/
theorem C4_counterexample :
    OTree.visits_of (OTree.set_occlusions (fun _ => OAction.root)
      (OTree.init [fPresent, fAbsent]) fAbsent true).1.super
      (OAction.factor fPresent) = 0 ∧
    (OTree.set_occlusions (fun _ => OAction.root)
      (OTree.set_occlusions (fun _ => OAction.root)
        (OTree.init [fPresent, fAbsent]) fAbsent true).1 fPresent true).2.2 = true ∧
    (OTree.set_occlusions (fun _ => OAction.factor fPresent)
      (OTree.set_occlusions (fun _ => OAction.root)
        (OTree.init [fPresent, fAbsent]) fAbsent true).1 fPresent true).2.2 = false := by
  decide

namespace GOFIAgent

/-- The hypothesis-distribution fields of one agent's `OGoalsProbabilities`
table touched by the belief-merging loop of `GOFIAgent.update_plan`. -/
structure MTable where
  occluded_factors_priors : OccludedFactor → ℚ
  occluded_factors_probabilities : OccludedFactor → ℚ
  merged_occluded_factors_probabilities : OccludedFactor → ℚ

/-- Pointwise update of the per-agent table map. -/
def update_tables (tables : Nat → MTable) (aid : Nat) (t : MTable) :
    Nat → MTable :=
  fun a => if a = aid then t else tables a

/-- The belief-merging loop of `GOFIAgent.update_plan` (lines 179-197).
`recog` abstracts `OGoalRecognition.update_goals_probabilities` for one
agent: given the agent id (standing for its observations and likelihoods)
and the table's current hypothesis priors it returns the hypothesis
posteriors the update stores. The loop skips the ego id, overwrites each
subsequent agent's priors with the previous agent's posteriors, runs
recognition, and tracks `previous_agent_id` (the second component). -/
def belief_merge_loop (recog : Nat → (OccludedFactor → ℚ) → OccludedFactor → ℚ)
    (ego : Nat) :
    List Nat → (Nat → MTable) → Option Nat → (Nat → MTable) × Option Nat
  | [], tables, prev => (tables, prev)
  | aid :: rest, tables, prev =>
      if aid = ego then belief_merge_loop recog ego rest tables prev
      else
        let t0 := tables aid
        let t1 : MTable :=
          match prev with
          | none => t0
          | some p => ⟨(tables p).occluded_factors_probabilities,
              t0.occluded_factors_probabilities,
              t0.merged_occluded_factors_probabilities⟩
        let t2 : MTable := ⟨t1.occluded_factors_priors,
          recog aid t1.occluded_factors_priors,
          t1.merged_occluded_factors_probabilities⟩
        belief_merge_loop recog ego rest (update_tables tables aid t2) (some aid)

/-- Lines 199-202 of `gofi_agent.py` after the loop: install the last
processed agent's hypothesis posterior as the merged distribution of every
agent's table (`aids` are the keys of `self._goal_probabilities`). When no
agent was processed the Python code would raise a `KeyError` on the `None`
key; the claim is restricted to a nonempty processed order. -/
def update_plan_beliefs (recog : Nat → (OccludedFactor → ℚ) → OccludedFactor → ℚ)
    (ego : Nat) (order aids : List Nat) (tables : Nat → MTable) :
    (Nat → MTable) × Option Nat :=
  let res := belief_merge_loop recog ego order tables none
  match res.2 with
  | none => res
  | some last =>
      (fun a =>
        if a ∈ aids then
          ⟨(res.1 a).occluded_factors_priors,
           (res.1 a).occluded_factors_probabilities,
           (res.1 last).occluded_factors_probabilities⟩
        else res.1 a,
       some last)

theorem loop_filter_ego (recog : Nat → (OccludedFactor → ℚ) → OccludedFactor → ℚ)
    (ego : Nat) :
    ∀ (order : List Nat) (tables : Nat → MTable) (prev : Option Nat),
    belief_merge_loop recog ego order tables prev
      = belief_merge_loop recog ego (order.filter (fun a => a != ego)) tables prev := by
  intro order
  induction order with
  | nil => intro tables prev; rfl
  | cons a rest ih =>
      intro tables prev
      by_cases ha : a = ego
      · rw [belief_merge_loop, if_pos ha, ih,
          List.filter_cons_of_neg (by simp [ha])]
      · rw [List.filter_cons_of_pos (by simp [ha]),
          belief_merge_loop, belief_merge_loop, if_neg ha, if_neg ha]
        exact ih _ _

theorem loop_untouched (recog : Nat → (OccludedFactor → ℚ) → OccludedFactor → ℚ)
    (ego : Nat) :
    ∀ (ord : List Nat) (tables : Nat → MTable) (prev : Option Nat) (a : Nat),
    a ∉ ord → (belief_merge_loop recog ego ord tables prev).1 a = tables a := by
  intro ord
  induction ord with
  | nil => intro tables prev a _; rfl
  | cons b rest ih =>
      intro tables prev a ha
      have hne : a ≠ b := fun h => ha (h ▸ List.mem_cons_self b rest)
      have hnr : a ∉ rest := fun h => ha (List.mem_cons_of_mem b h)
      by_cases hb : b = ego
      · rw [belief_merge_loop, if_pos hb]
        exact ih tables prev a hnr
      · rw [belief_merge_loop, if_neg hb]
        rw [ih _ (some b) a hnr]
        simp [update_tables, hne]

theorem loop_last (recog : Nat → (OccludedFactor → ℚ) → OccludedFactor → ℚ)
    (ego : Nat) :
    ∀ (ord : List Nat) (tables : Nat → MTable) (prev : Option Nat),
    (∀ a ∈ ord, a ≠ ego) →
    (belief_merge_loop recog ego ord tables prev).2
      = if h : ord = [] then prev else some (ord.getLast h) := by
  intro ord
  induction ord with
  | nil => intro tables prev _; rfl
  | cons b rest ih =>
      intro tables prev hego
      have hb : b ≠ ego := hego b (List.mem_cons_self b rest)
      rw [belief_merge_loop, if_neg hb]
      rw [ih _ (some b) (fun a ha => hego a (List.mem_cons_of_mem b ha))]
      by_cases hr : rest = []
      · subst hr
        simp
      · rw [dif_neg hr, dif_neg (List.cons_ne_nil b rest)]
        rw [List.getLast_cons hr]

theorem loop_head_spec (recog : Nat → (OccludedFactor → ℚ) → OccludedFactor → ℚ)
    (ego : Nat) (ord : List Nat) (tables : Nat → MTable) (p : Nat)
    (hego : ∀ a ∈ ord, a ≠ ego) (hnd : ord.Nodup) (hne : 0 < ord.length) :
    ((belief_merge_loop recog ego ord tables (some p)).1
        (ord.get ⟨0, hne⟩)).occluded_factors_priors
      = (tables p).occluded_factors_probabilities ∧
    ((belief_merge_loop recog ego ord tables (some p)).1
        (ord.get ⟨0, hne⟩)).occluded_factors_probabilities
      = recog (ord.get ⟨0, hne⟩) ((tables p).occluded_factors_probabilities) := by
  cases ord with
  | nil => cases hne
  | cons f rest =>
      have hf : f ≠ ego := hego f (List.mem_cons_self f rest)
      obtain ⟨hfnin, -⟩ := List.nodup_cons.mp hnd
      simp only [belief_merge_loop, if_neg hf, List.get]
      rw [loop_untouched recog ego rest _ (some f) f hfnin]
      simp [update_tables]

theorem loop_chain (recog : Nat → (OccludedFactor → ℚ) → OccludedFactor → ℚ)
    (ego : Nat) :
    ∀ (ord : List Nat) (tables : Nat → MTable) (prev : Option Nat),
    (∀ a ∈ ord, a ≠ ego) → ord.Nodup →
    ∀ (i : Nat) (hi : i + 1 < ord.length),
      ((belief_merge_loop recog ego ord tables prev).1
          (ord.get ⟨i + 1, hi⟩)).occluded_factors_priors
        = ((belief_merge_loop recog ego ord tables prev).1
            (ord.get ⟨i, by omega⟩)).occluded_factors_probabilities ∧
      ((belief_merge_loop recog ego ord tables prev).1
          (ord.get ⟨i + 1, hi⟩)).occluded_factors_probabilities
        = recog (ord.get ⟨i + 1, hi⟩)
            (((belief_merge_loop recog ego ord tables prev).1
              (ord.get ⟨i, by omega⟩)).occluded_factors_probabilities) := by
  intro ord
  induction ord with
  | nil => intro tables prev _ _ i hi; cases hi
  | cons f rest ih =>
      intro tables prev hego hnd i hi
      have hf : f ≠ ego := hego f (List.mem_cons_self f rest)
      obtain ⟨hfnin, hndr⟩ := List.nodup_cons.mp hnd
      have hegor : ∀ a ∈ rest, a ≠ ego := fun a ha => hego a (List.mem_cons_of_mem f ha)
      simp only [belief_merge_loop, if_neg hf]
      cases i with
      | zero =>
          have hr0 : 0 < rest.length := by
            simp only [List.length_cons] at hi
            omega
          have hhead := loop_head_spec recog ego rest
            (update_tables tables f
              ⟨(match prev with
                | none => tables f
                | some p => ⟨(tables p).occluded_factors_probabilities,
                    (tables f).occluded_factors_probabilities,
                    (tables f).merged_occluded_factors_probabilities⟩).occluded_factors_priors,
               recog f (match prev with
                | none => tables f
                | some p => ⟨(tables p).occluded_factors_probabilities,
                    (tables f).occluded_factors_probabilities,
                    (tables f).merged_occluded_factors_probabilities⟩).occluded_factors_priors,
               (match prev with
                | none => tables f
                | some p => ⟨(tables p).occluded_factors_probabilities,
                    (tables f).occluded_factors_probabilities,
                    (tables f).merged_occluded_factors_probabilities⟩).merged_occluded_factors_probabilities⟩)
            f hegor hndr hr0
          have huntouched := loop_untouched recog ego rest
            (update_tables tables f
              ⟨(match prev with
                | none => tables f
                | some p => ⟨(tables p).occluded_factors_probabilities,
                    (tables f).occluded_factors_probabilities,
                    (tables f).merged_occluded_factors_probabilities⟩).occluded_factors_priors,
               recog f (match prev with
                | none => tables f
                | some p => ⟨(tables p).occluded_factors_probabilities,
                    (tables f).occluded_factors_probabilities,
                    (tables f).merged_occluded_factors_probabilities⟩).occluded_factors_priors,
               (match prev with
                | none => tables f
                | some p => ⟨(tables p).occluded_factors_probabilities,
                    (tables f).occluded_factors_probabilities,
                    (tables f).merged_occluded_factors_probabilities⟩).merged_occluded_factors_probabilities⟩)
            (some f) f hfnin
          constructor
          · rw [show ((f :: rest).get ⟨1, hi⟩) = rest.get ⟨0, hr0⟩ from rfl,
              show ((f :: rest).get ⟨0, by omega⟩) = f from rfl]
            rw [hhead.1, huntouched]
          · rw [show ((f :: rest).get ⟨1, hi⟩) = rest.get ⟨0, hr0⟩ from rfl,
              show ((f :: rest).get ⟨0, by omega⟩) = f from rfl]
            rw [hhead.2, huntouched]
      | succ j =>
          have hj : j + 1 < rest.length := by
            simp only [List.length_cons] at hi
            omega
          exact ih _ (some f) hegor hndr j hj

end GOFIAgent

/-- C2: in the belief-merging loop, each processed agent after the first has
its hypothesis priors overwritten with the immediately preceding agent's
hypothesis posterior and its own posterior is the recognition of those
priors; after the loop, the last processed agent's hypothesis posterior is
installed unchanged as the merged distribution of every agent's table. -/
theorem C2_sequential_belief_merge
    (recog : Nat → (OccludedFactor → ℚ) → OccludedFactor → ℚ) (ego : Nat)
    (order aids : List Nat) (tables : Nat → GOFIAgent.MTable)
    (hne : order.filter (fun a => a != ego) ≠ [])
    (hnd : (order.filter (fun a => a != ego)).Nodup) :
    (∀ a ∈ aids,
      ((GOFIAgent.update_plan_beliefs recog ego order aids tables).1
          a).merged_occluded_factors_probabilities
        = ((GOFIAgent.update_plan_beliefs recog ego order aids tables).1
            ((order.filter (fun a => a != ego)).getLast hne)).occluded_factors_probabilities) ∧
    (∀ (i : Nat) (hi : i + 1 < (order.filter (fun a => a != ego)).length),
      ((GOFIAgent.update_plan_beliefs recog ego order aids tables).1
          ((order.filter (fun a => a != ego)).get ⟨i + 1, hi⟩)).occluded_factors_priors
        = ((GOFIAgent.update_plan_beliefs recog ego order aids tables).1
            ((order.filter (fun a => a != ego)).get ⟨i, by omega⟩)).occluded_factors_probabilities ∧
      ((GOFIAgent.update_plan_beliefs recog ego order aids tables).1
          ((order.filter (fun a => a != ego)).get ⟨i + 1, hi⟩)).occluded_factors_probabilities
        = recog ((order.filter (fun a => a != ego)).get ⟨i + 1, hi⟩)
            (((GOFIAgent.update_plan_beliefs recog ego order aids tables).1
              ((order.filter (fun a => a != ego)).get ⟨i, by omega⟩)).occluded_factors_probabilities)) := by
  have hego : ∀ a ∈ order.filter (fun a => a != ego), a ≠ ego := by
    intro a ha
    have hmem := List.mem_filter.mp ha
    simpa using hmem.2
  have hres : GOFIAgent.belief_merge_loop recog ego order tables none
      = GOFIAgent.belief_merge_loop recog ego (order.filter (fun a => a != ego)) tables none :=
    GOFIAgent.loop_filter_ego recog ego order tables none
  have hlast : (GOFIAgent.belief_merge_loop recog ego
      (order.filter (fun a => a != ego)) tables none).2
      = some ((order.filter (fun a => a != ego)).getLast hne) := by
    rw [GOFIAgent.loop_last recog ego (order.filter (fun a => a != ego)) tables none hego,
      dif_neg hne]
  have hmain : (GOFIAgent.update_plan_beliefs recog ego order aids tables).1 = fun a =>
      if a ∈ aids then
        ⟨((GOFIAgent.belief_merge_loop recog ego (order.filter (fun a => a != ego))
            tables none).1 a).occluded_factors_priors,
         ((GOFIAgent.belief_merge_loop recog ego (order.filter (fun a => a != ego))
            tables none).1 a).occluded_factors_probabilities,
         ((GOFIAgent.belief_merge_loop recog ego (order.filter (fun a => a != ego))
            tables none).1
            ((order.filter (fun a => a != ego)).getLast hne)).occluded_factors_probabilities⟩
      else (GOFIAgent.belief_merge_loop recog ego (order.filter (fun a => a != ego))
        tables none).1 a := by
    simp only [GOFIAgent.update_plan_beliefs]
    rw [hres, hlast]
  have hpres : ∀ x,
      ((GOFIAgent.update_plan_beliefs recog ego order aids tables).1 x).occluded_factors_priors
        = ((GOFIAgent.belief_merge_loop recog ego (order.filter (fun a => a != ego))
            tables none).1 x).occluded_factors_priors ∧
      ((GOFIAgent.update_plan_beliefs recog ego order aids tables).1 x).occluded_factors_probabilities
        = ((GOFIAgent.belief_merge_loop recog ego (order.filter (fun a => a != ego))
            tables none).1 x).occluded_factors_probabilities := by
    intro x
    rw [hmain]
    by_cases hx : x ∈ aids <;> simp [hx]
  constructor
  · intro a ha
    conv_lhs => rw [hmain]
    simp only [ha, if_pos]
    rw [(hpres ((order.filter (fun a => a != ego)).getLast hne)).2]
  · intro i hi
    obtain ⟨hc1, hc2⟩ := GOFIAgent.loop_chain recog ego
      (order.filter (fun a => a != ego)) tables none hego hnd i hi
    constructor
    · rw [(hpres _).1, (hpres _).2]
      exact hc1
    · rw [(hpres _).2, (hpres _).2]
      exact hc2

/-- C2 witness: two observed agents merged in order `[1, 2]` with the
identity recognition map; agent 1's table receives agent 2's posterior as its
merged distribution. -/
theorem C2_sequential_belief_merge_witness :
    ((GOFIAgent.update_plan_beliefs (fun _ p => p) 0 [1, 2] [1, 2]
        (fun _ => ⟨fun _ => 1, fun _ => 2, fun _ => 3⟩)).1
        1).merged_occluded_factors_probabilities
      = ((GOFIAgent.update_plan_beliefs (fun _ p => p) 0 [1, 2] [1, 2]
          (fun _ => ⟨fun _ => 1, fun _ => 2, fun _ => 3⟩)).1
          (([1, 2].filter (fun a => a != 0)).getLast
            (by decide))).occluded_factors_probabilities :=
  (C2_sequential_belief_merge (fun _ p => p) 0 [1, 2] [1, 2]
    (fun _ => ⟨fun _ => 1, fun _ => 2, fun _ => 3⟩) (by decide) (by decide)).1
    1 (by decide)

/-- Python-dict insertion on an association list keyed by agent id: overwrite
the value when the key exists, append otherwise. -/
def dictInsert (frame : List (Nat × Nat)) (k v : Nat) : List (Nat × Nat) :=
  if frame.any (fun kv => kv.1 = k) then
    frame.map (fun kv => if kv.1 = k then (k, v) else kv)
  else frame ++ [(k, v)]

/-- The `ORollout` state relevant to occlusion bookkeeping: the construction
snapshot of the initial frame's agent ids, the live agent dictionary and the
initial frame (both keyed by agent id; values are abstract state tokens,
which is enough because the claim is about which ids are present), and the
occluded-factor/hide flags. -/
structure ORolloutState where
  initial_frame_agents : List Nat
  agents : List (Nat × Nat)
  initial_frame : List (Nat × Nat)
  init_occluded_factor : Option OccludedFactor
  occluded_factor : Option OccludedFactor
  hide_occluded : Bool

/-- An occlusion-related call on a rollout before `reset()`. -/
inductive ORolloutOp where
  | set_factor (of : OccludedFactor) : ORolloutOp
  | hide : ORolloutOp

namespace ORollout

/-- `ORollout.__init__`: `_initial_frame_agents = list(initial_frame)` (the
key list); the live agent dictionary is built by the igp2 base constructor
from the initial frame, so it is passed in and constrained to have the same
key set in the claims. -/
def mk_rollout (initial_frame : List (Nat × Nat)) (agents0 : List (Nat × Nat))
    (occluded_factor : Option OccludedFactor) : ORolloutState :=
  ⟨initial_frame.map Prod.fst, agents0, initial_frame, occluded_factor,
    occluded_factor, false⟩

/-- `ORollout.set_occluded_factor`: install the factor and add every present
element to the live agents and to the initial frame. -/
def set_occluded_factor (s : ORolloutState) (occluded_factor : OccludedFactor) :
    ORolloutState :=
  occluded_factor.present_elements.foldl
    (fun st e =>
      ⟨st.initial_frame_agents,
       dictInsert st.agents e.agent_id e.state,
       dictInsert st.initial_frame e.agent_id e.state,
       st.init_occluded_factor, st.occluded_factor, st.hide_occluded⟩)
    ⟨s.initial_frame_agents, s.agents, s.initial_frame, s.init_occluded_factor,
      some occluded_factor, s.hide_occluded⟩

/-- `ORollout.hide_occluded`: hide the occluded factor from the ego. -/
def hide_from_ego (s : ORolloutState) : ORolloutState :=
  ⟨s.initial_frame_agents, s.agents, s.initial_frame, s.init_occluded_factor,
    s.occluded_factor, true⟩

/-- `ORollout.reset`: run the igp2 base-class reset (the abstract parameter
`base_reset`), restore the construction-time occluded factor, drop every
agent id not in the construction snapshot from the live agents and the
initial frame, and re-enable ego observation of occluded elements. -/
def reset (base_reset : ORolloutState → ORolloutState) (s : ORolloutState) :
    ORolloutState :=
  let sb := base_reset s
  ⟨sb.initial_frame_agents,
   sb.agents.filter (fun kv => kv.1 ∈ sb.initial_frame_agents),
   sb.initial_frame.filter (fun kv => kv.1 ∈ sb.initial_frame_agents),
   sb.init_occluded_factor, sb.init_occluded_factor, false⟩

/-- One occlusion-related call. -/
def apply_op (s : ORolloutState) : ORolloutOp → ORolloutState
  | ORolloutOp.set_factor of => set_occluded_factor s of
  | ORolloutOp.hide => hide_from_ego s

/-- A sequence of occlusion-related calls. -/
def apply_ops (s : ORolloutState) (ops : List ORolloutOp) : ORolloutState :=
  ops.foldl apply_op s

theorem dictInsert_keys (d : List (Nat × Nat)) (k v a : Nat) :
    a ∈ (dictInsert d k v).map Prod.fst ↔ (a = k ∨ a ∈ d.map Prod.fst) := by
  unfold dictInsert
  by_cases hany : d.any (fun kv => kv.1 = k)
  · rw [if_pos hany]
    have hk : k ∈ d.map Prod.fst := by
      obtain ⟨kv, hkv, hfst⟩ := List.any_eq_true.mp hany
      simp only [decide_eq_true_eq] at hfst
      exact List.mem_map.mpr ⟨kv, hkv, hfst⟩
    have hkeys : (d.map (fun kv => if kv.1 = k then (k, v) else kv)).map Prod.fst
        = d.map Prod.fst := by
      rw [List.map_map]
      apply List.map_eq_map_iff.mpr
      intro kv _
      by_cases hkv : kv.1 = k
      · simp [hkv]
      · simp [hkv]
    rw [hkeys]
    constructor
    · exact Or.inr
    · rintro (rfl | h)
      · exact hk
      · exact h
  · rw [if_neg hany]
    simp [or_comm]

theorem insert_fold_invariant (es : List OElem) :
    ∀ s : ORolloutState,
    (es.foldl (fun st e =>
      ⟨st.initial_frame_agents,
       dictInsert st.agents e.agent_id e.state,
       dictInsert st.initial_frame e.agent_id e.state,
       st.init_occluded_factor, st.occluded_factor, st.hide_occluded⟩) s).initial_frame_agents
      = s.initial_frame_agents ∧
    (es.foldl (fun st e =>
      ⟨st.initial_frame_agents,
       dictInsert st.agents e.agent_id e.state,
       dictInsert st.initial_frame e.agent_id e.state,
       st.init_occluded_factor, st.occluded_factor, st.hide_occluded⟩) s).init_occluded_factor
      = s.init_occluded_factor ∧
    (∀ a, a ∈ s.agents.map Prod.fst →
      a ∈ (es.foldl (fun st e =>
        ⟨st.initial_frame_agents,
         dictInsert st.agents e.agent_id e.state,
         dictInsert st.initial_frame e.agent_id e.state,
         st.init_occluded_factor, st.occluded_factor, st.hide_occluded⟩) s).agents.map Prod.fst) ∧
    (∀ a, a ∈ s.initial_frame.map Prod.fst →
      a ∈ (es.foldl (fun st e =>
        ⟨st.initial_frame_agents,
         dictInsert st.agents e.agent_id e.state,
         dictInsert st.initial_frame e.agent_id e.state,
         st.init_occluded_factor, st.occluded_factor, st.hide_occluded⟩) s).initial_frame.map Prod.fst) := by
  induction es with
  | nil => intro s; exact ⟨rfl, rfl, fun a h => h, fun a h => h⟩
  | cons e es ih =>
      intro s
      simp only [List.foldl_cons]
      obtain ⟨ih1, ih2, ih3, ih4⟩ := ih
        ⟨s.initial_frame_agents,
         dictInsert s.agents e.agent_id e.state,
         dictInsert s.initial_frame e.agent_id e.state,
         s.init_occluded_factor, s.occluded_factor, s.hide_occluded⟩
      refine ⟨ih1, ih2, ?_, ?_⟩
      · intro a ha
        exact ih3 a ((dictInsert_keys s.agents e.agent_id e.state a).mpr (Or.inr ha))
      · intro a ha
        exact ih4 a ((dictInsert_keys s.initial_frame e.agent_id e.state a).mpr (Or.inr ha))

theorem apply_ops_invariant (ops : List ORolloutOp) :
    ∀ s : ORolloutState,
    (apply_ops s ops).initial_frame_agents = s.initial_frame_agents ∧
    (apply_ops s ops).init_occluded_factor = s.init_occluded_factor ∧
    (∀ a, a ∈ s.agents.map Prod.fst → a ∈ (apply_ops s ops).agents.map Prod.fst) ∧
    (∀ a, a ∈ s.initial_frame.map Prod.fst →
      a ∈ (apply_ops s ops).initial_frame.map Prod.fst) := by
  induction ops with
  | nil => intro s; exact ⟨rfl, rfl, fun a h => h, fun a h => h⟩
  | cons op rest ih =>
      intro s
      have hstep : (apply_op s op).initial_frame_agents = s.initial_frame_agents ∧
          (apply_op s op).init_occluded_factor = s.init_occluded_factor ∧
          (∀ a, a ∈ s.agents.map Prod.fst → a ∈ (apply_op s op).agents.map Prod.fst) ∧
          (∀ a, a ∈ s.initial_frame.map Prod.fst →
            a ∈ (apply_op s op).initial_frame.map Prod.fst) := by
        cases op with
        | hide => exact ⟨rfl, rfl, fun a h => h, fun a h => h⟩
        | set_factor of => exact insert_fold_invariant of.present_elements _
      obtain ⟨ihs1, ihs2, ihs3, ihs4⟩ := ih (apply_op s op)
      refine ⟨?_, ?_, ?_, ?_⟩
      · show (apply_ops (apply_op s op) rest).initial_frame_agents = _
        rw [ihs1, hstep.1]
      · show (apply_ops (apply_op s op) rest).init_occluded_factor = _
        rw [ihs2, hstep.2.1]
      · intro a ha
        exact ihs3 a (hstep.2.2.1 a ha)
      · intro a ha
        exact ihs4 a (hstep.2.2.2 a ha)

end ORollout

/-- C10: after any sequence of `set_occluded_factor` / `hide_occluded` calls
followed by `reset()`, the live agent set and the initial frame contain
exactly the agent ids of the construction-time initial frame, and hiding from
the ego is disabled. The igp2 base-class constructor and `reset()` are
abstract, constrained only to build the agent dictionary from the initial
frame and to preserve the key sets and the subclass fields they do not touch. -/
theorem C10_reset_restores (initial_frame agents0 : List (Nat × Nat))
    (of0 : Option OccludedFactor) (ops : List ORolloutOp)
    (base_reset : ORolloutState → ORolloutState)
    (hagents0 : ∀ a, a ∈ agents0.map Prod.fst ↔ a ∈ initial_frame.map Prod.fst)
    (hbase : ∀ s : ORolloutState,
      (base_reset s).initial_frame_agents = s.initial_frame_agents ∧
      (base_reset s).init_occluded_factor = s.init_occluded_factor ∧
      (∀ a, a ∈ (base_reset s).agents.map Prod.fst ↔ a ∈ s.agents.map Prod.fst) ∧
      (∀ a, a ∈ (base_reset s).initial_frame.map Prod.fst ↔
        a ∈ s.initial_frame.map Prod.fst)) :
    (∀ a, a ∈ (ORollout.reset base_reset
        (ORollout.apply_ops (ORollout.mk_rollout initial_frame agents0 of0)
          ops)).agents.map Prod.fst ↔ a ∈ initial_frame.map Prod.fst) ∧
    (∀ a, a ∈ (ORollout.reset base_reset
        (ORollout.apply_ops (ORollout.mk_rollout initial_frame agents0 of0)
          ops)).initial_frame.map Prod.fst ↔ a ∈ initial_frame.map Prod.fst) ∧
    (ORollout.reset base_reset
        (ORollout.apply_ops (ORollout.mk_rollout initial_frame agents0 of0)
          ops)).hide_occluded = false ∧
    (ORollout.reset base_reset
        (ORollout.apply_ops (ORollout.mk_rollout initial_frame agents0 of0)
          ops)).occluded_factor = of0 := by
  obtain ⟨hinv1, hinv2, hinv3, hinv4⟩ :=
    ORollout.apply_ops_invariant ops (ORollout.mk_rollout initial_frame agents0 of0)
  obtain ⟨hb1, hb2, hb3, hb4⟩ :=
    hbase (ORollout.apply_ops (ORollout.mk_rollout initial_frame agents0 of0) ops)
  have hifa : (base_reset (ORollout.apply_ops
      (ORollout.mk_rollout initial_frame agents0 of0) ops)).initial_frame_agents
      = initial_frame.map Prod.fst := by
    rw [hb1, hinv1]
    rfl
  have hfilter : ∀ (l : List (Nat × Nat)) (L : List Nat) (a : Nat),
      a ∈ (l.filter (fun kv => kv.1 ∈ L)).map Prod.fst ↔
        a ∈ l.map Prod.fst ∧ a ∈ L := by
    intro l L a
    constructor
    · intro h
      obtain ⟨kv, hkv, rfl⟩ := List.mem_map.mp h
      obtain ⟨hmem, hdec⟩ := List.mem_filter.mp hkv
      exact ⟨List.mem_map.mpr ⟨kv, hmem, rfl⟩, by simpa using hdec⟩
    · rintro ⟨h1, h2⟩
      obtain ⟨kv, hkv, rfl⟩ := List.mem_map.mp h1
      exact List.mem_map.mpr ⟨kv, List.mem_filter.mpr ⟨hkv, by simpa using h2⟩, rfl⟩
  refine ⟨?_, ?_, rfl, ?_⟩
  · intro a
    show a ∈ ((base_reset _).agents.filter
        (fun kv => kv.1 ∈ (base_reset _).initial_frame_agents)).map Prod.fst ↔ _
    rw [hfilter, hifa, hb3 a]
    constructor
    · exact And.right
    · intro ha
      exact ⟨hinv3 a ((hagents0 a).mpr ha), ha⟩
  · intro a
    show a ∈ ((base_reset _).initial_frame.filter
        (fun kv => kv.1 ∈ (base_reset _).initial_frame_agents)).map Prod.fst ↔ _
    rw [hfilter, hifa, hb4 a]
    constructor
    · exact And.right
    · intro ha
      exact ⟨hinv4 a ha, ha⟩
  · show (base_reset _).init_occluded_factor = of0
    rw [hb2, hinv2]
    rfl

/-- C10 witness: injecting a present element and hiding it, then resetting
with an identity base reset, restores the single construction-time agent id
and clears the hide flag. -/
theorem C10_reset_restores_witness :
    (1 ∈ (ORollout.reset id
        (ORollout.apply_ops (ORollout.mk_rollout [(1, 10)] [(1, 10)] none)
          [ORolloutOp.set_factor fPresent, ORolloutOp.hide])).agents.map Prod.fst ↔
      1 ∈ ([(1, 10)] : List (Nat × Nat)).map Prod.fst) ∧
    (ORollout.reset id
        (ORollout.apply_ops (ORollout.mk_rollout [(1, 10)] [(1, 10)] none)
          [ORolloutOp.set_factor fPresent, ORolloutOp.hide])).hide_occluded = false :=
  ⟨(C10_reset_restores [(1, 10)] [(1, 10)] none
      [ORolloutOp.set_factor fPresent, ORolloutOp.hide] id (fun _ => Iff.rfl)
      (fun _ => ⟨rfl, rfl, fun _ => Iff.rfl, fun _ => Iff.rfl⟩)).1 1,
   (C10_reset_restores [(1, 10)] [(1, 10)] none
      [ORolloutOp.set_factor fPresent, ORolloutOp.hide] id (fun _ => Iff.rfl)
      (fun _ => ⟨rfl, rfl, fun _ => Iff.rfl, fun _ => Iff.rfl⟩)).2.2.1⟩
